import Mathlib

/-!
Verification of the Hydrogen Safety Trainer core: the quiz engine
(src/quiz_engine.py), the recommendation builder
(src/app.py, TrainerApp._build_recommendations) and the grid-based
dispersion simulator (src/app.py, SafetyAnimation._step).

Python floats are modelled as rationals; `random.shuffle` is modelled by an
explicit reordering function supplied by the environment; the three counting
tables the builder fills in one pass over the history are defined as one fold
per table, with identical results since each table is updated independently.
-/

namespace HydrogenTrainer

/-- Question record, from src/quiz_engine.py (the `Question` dataclass). -/
structure Question where
  id : String
  category : String
  difficulty : String
  question : String
  choices : List String
  correct_index : Int
  rationale : String
deriving DecidableEq

/-- One history entry, the dict built by `QuizEngine.check_and_record`. -/
structure AnswerRec where
  id : String
  question : String
  chosen : String
  correct_text : String
  is_correct : Bool
  rationale : String
  category : String
  difficulty : String
deriving DecidableEq

/-- Engine state, the mutable fields of `class QuizEngine`. -/
structure QuizEngine where
  all_questions : List Question
  quiz_items : List Question
  index : Nat
  correct_count : Nat
  history : List AnswerRec
deriving DecidableEq

/-- Constructor `QuizEngine.__init__`. -/
def QuizEngine.init (questions : List Question) : QuizEngine :=
  ⟨questions, [], 0, 0, []⟩

/-- The category-filtered pool built in `prepare_quiz`:
`[q for q in self.all_questions if (category is None or q.category == category)]`. -/
def poolOf (e : QuizEngine) (category : Option String) : List Question :=
  e.all_questions.filter fun q =>
    match category with
    | none => true
    | some c => q.category == c

/-- Method `QuizEngine.prepare_quiz`.  The call `random.shuffle(pool)` is
modelled by an explicit reordering function `sf` supplied by the environment;
with `shuffle` false it is not applied, as in the source. -/
def QuizEngine.prepare_quiz (e : QuizEngine) (n : Int) (category : Option String)
    (shuffle : Bool) (sf : List Question → List Question) : QuizEngine :=
  let pool := poolOf e category
  let pool := if shuffle then sf pool else pool
  ⟨e.all_questions, pool.take (max 1 n).toNat, 0, 0, []⟩

/-- Method `QuizEngine.current`: the item at `index` when
`0 <= index < len(quiz_items)`, else absent. -/
def QuizEngine.current (e : QuizEngine) : Option Question :=
  e.quiz_items[e.index]?

/-- Helper for `q.choices[i] if 0 <= i < len(q.choices) else ""`, as used in
`check_and_record` for the chosen and correct texts. -/
def choiceText (choices : List String) (i : Int) : String :=
  if 0 ≤ i ∧ i < (choices.length : Int) then choices.getD i.toNat "" else ""

/-- Method `QuizEngine.check_and_record`: the new state paired with the
returned `(is_correct, rationale)`. -/
def QuizEngine.check_and_record (e : QuizEngine) (chosen_index : Int) :
    QuizEngine × Bool × String :=
  match e.current with
  | none => (e, false, "")
  | some q =>
      let is_correct : Bool := chosen_index == q.correct_index
      let rec0 : AnswerRec :=
        ⟨q.id, q.question, choiceText q.choices chosen_index,
         choiceText q.choices q.correct_index, is_correct, q.rationale,
         q.category, q.difficulty⟩
      (⟨e.all_questions, e.quiz_items, e.index,
        e.correct_count + (if is_correct then 1 else 0),
        e.history ++ [rec0]⟩, is_correct, q.rationale)

/-- Method `QuizEngine.next`: advance `index` when
`index + 1 < len(quiz_items)`, reporting whether it advanced. -/
def QuizEngine.next (e : QuizEngine) : QuizEngine × Bool :=
  if e.index + 1 < e.quiz_items.length then
    (⟨e.all_questions, e.quiz_items, e.index + 1, e.correct_count, e.history⟩, true)
  else (e, false)

/-- A session operation: one `check_and_record` call or one `next` call. -/
inductive Op where
  | check : Int → Op
  | next : Op
deriving DecidableEq

/-- State effect of one operation. -/
def applyOp (e : QuizEngine) : Op → QuizEngine
  | Op.check ci => (e.check_and_record ci).1
  | Op.next => e.next.1

/-- State after a sequence of operations. -/
def applyOps (e : QuizEngine) (ops : List Op) : QuizEngine :=
  ops.foldl applyOp e

/-- Number of `check_and_record` calls in `ops` made while a current question
exists; each such call appends exactly one history record. -/
def submittedCount : QuizEngine → List Op → Nat
  | _, [] => 0
  | e, Op.check ci :: t =>
      (if e.current.isSome then 1 else 0) + submittedCount (applyOp e (Op.check ci)) t
  | e, Op.next :: t => submittedCount (applyOp e Op.next) t

/-- The `correct_count` field agrees with the number of history records marked
correct. -/
def scoreInv (e : QuizEngine) : Prop :=
  e.correct_count = e.history.countP fun r => r.is_correct

/-- Python `Counter[k] += 1` on an insertion-ordered table: increment in place,
or append a fresh key with count 1 at the end (dict insertion order). -/
def bump : List (String × Nat) → String → List (String × Nat)
  | [], k => [(k, 1)]
  | (k', v) :: t, k => if k' == k then (k', v + 1) :: t else (k', v) :: bump t k

/-- Python `rationales[k].append(r)` on an insertion-ordered
`defaultdict(list)`. -/
def addRationale : List (String × List String) → String → String → List (String × List String)
  | [], k, r => [(k, [r])]
  | (k', rs) :: t, k, r =>
      if k' == k then (k', rs ++ [r]) :: t else (k', rs) :: addRationale t k r

/-- Python `rationales.get(cat, [])`. -/
def lookupRationales (l : List (String × List String)) (k : String) : List String :=
  match l.find? (fun p => p.1 == k) with
  | some p => p.2
  | none => []

/-- Insert one entry into a count-descending list, after every entry whose
count is greater than or equal to its own: the stable placement realised by
`Counter.most_common`. -/
def insertDesc (p : String × Nat) : List (String × Nat) → List (String × Nat)
  | [] => [p]
  | q :: t => if q.2 < p.2 then p :: q :: t else q :: insertDesc p t

/-- Stable sort by count descending, ties keeping insertion order: the order
`Counter.most_common` returns. -/
def sortDesc (l : List (String × Nat)) : List (String × Nat) :=
  l.foldl (fun acc p => insertDesc p acc) []

/-- Table `wrong_by_cat`: incorrect-answer counts per category, keys in
first-seen order. -/
def wrongByCat (history : List AnswerRec) : List (String × Nat) :=
  history.foldl (fun acc r => if r.is_correct then acc else bump acc r.category) []

/-- Table `wrong_by_diff`: incorrect-answer counts per difficulty, keys in
first-seen order. -/
def wrongByDiff (history : List AnswerRec) : List (String × Nat) :=
  history.foldl (fun acc r => if r.is_correct then acc else bump acc r.difficulty) []

/-- Table `rationales`: per category, the nonempty rationales of its incorrect
records, in encounter order. -/
def wrongRationales (history : List AnswerRec) : List (String × List String) :=
  history.foldl (fun acc r =>
    if r.is_correct then acc
    else if r.rationale ≠ "" then addRationale acc r.category r.rationale else acc) []

/-- List `top_cats = [c for c, _ in wrong_by_cat.most_common(3)]`. -/
def topCats (history : List AnswerRec) : List String :=
  ((sortDesc (wrongByCat history)).take 3).map Prod.fst

/-- The numbered rationale hint lines per recommended category, from
`enumerate(rationales.get(cat, [])[:2], start=1)`. -/
def noteLines (rs : List String) : List String :=
  (List.enumFrom 1 (rs.take 2)).map fun p => "   ↳ Note " ++ toString p.1 ++ ": " ++ p.2

/-- The per-category recommendation lines of the builder's loop over
`top_cats`. -/
def catLines (rationales : List (String × List String)) (cats : List String) : List String :=
  cats.flatMap fun cat =>
    ("• " ++ cat ++ " — revise fundamentals and procedures.")
      :: noteLines (lookupRationales rationales cat)

/-- The optional difficulty hint: present only when `wrong_by_diff` is nonempty
and its most common difficulty string is truthy, that is, nonempty. -/
def toughestHint (wbd : List (String × Nat)) : List String :=
  if wbd.isEmpty then []
  else
    match (sortDesc wbd).head? with
    | some p =>
        if p.1 ≠ "" then
          ["• Your toughest level: " ++ p.1 ++ ". Try more practice questions in this difficulty."]
        else []
    | none => []

/-- The `lines` list built by `TrainerApp._build_recommendations` on its main
path. -/
def recLines (history : List AnswerRec) : List String :=
  ("\nRecommendations (focus on these topics):"
      :: catLines (wrongRationales history) (topCats history))
    ++ toughestHint (wrongByDiff history)

/-- The message returned when no answer was wrong. -/
def congratsMsg : String :=
  "\nRecommendations:\n• Great job — no missed questions. Review tips tab for reinforcement."

/-- Method `TrainerApp._build_recommendations`, as a function of the engine
history. -/
def build_recommendations (history : List AnswerRec) : String :=
  if history.isEmpty then ""
  else if (wrongByCat history).isEmpty then congratsMsg
  else String.intercalate "\n" (recLines history)

/-- First-occurrence order of the elements of a sequence (dict insertion
order), used to state the tie-break rule of the ranking. -/
def firstSeen (l : List String) : List String :=
  l.foldl (fun acc k => if k ∈ acc then acc else acc ++ [k]) []

/-- Grid width `NX` of `SafetyAnimation`. -/
def NX : Nat := 70

/-- Grid height `NY` of `SafetyAnimation`. -/
def NY : Nat := 35

/-- Leak source column, from `leak_cell = (6, NY-4)`. -/
def leak_li : Nat := 6

/-- Leak source row, from `leak_cell = (6, NY-4)`. -/
def leak_lj : Nat := NY - 4

/-- Left end of the vent span, `vent_x0 = 20`. -/
def vent_x0 : Nat := 20

/-- Right end (exclusive) of the vent span, `vent_x1 = NX - 20`. -/
def vent_x1 : Nat := NX - 20

/-- The concentration field `self.c`, accessed row first: `c j i` with
`0 ≤ j < NY` and `0 ≤ i < NX`; values outside the room never feed back into
in-room cells. -/
def Conc : Type := Nat → Nat → ℚ

/-- Injection stage: `c[lj, li] += 0.5 * leak_rate`. -/
def inject (leak_rate : ℚ) (c : Conc) : Conc := fun j i =>
  if j = leak_lj ∧ i = leak_li then c j i + (1 / 2) * leak_rate else c j i

/-- The buoyancy scratch buffer `tmp` after
`tmp[:] = c; tmp[:-1,:] += up * c[1:,:]; tmp[1:,:] -= up * c[1:,:]`. -/
def buoyTmp (up : ℚ) (c : Conc) : Conc := fun j i =>
  c j i + (if j + 1 < NY then up * c (j + 1) i else 0)
    - (if 1 ≤ j then up * c j i else 0)

/-- Buoyancy stage: skipped unless `up > 0`, otherwise every in-room cell
becomes `np.maximum(tmp, 0.0)`. -/
def buoy (up : ℚ) (c : Conc) : Conc :=
  if 0 < up then
    fun j i => if j < NY ∧ i < NX then max (buoyTmp up c j i) 0 else c j i
  else c

/-- Diffusion stage: skipped unless `d > 0`; interior cells get the 4-neighbor
stencil, every in-room cell then passes through `np.maximum(tmp, 0.0)`. -/
def diffuse (d : ℚ) (c : Conc) : Conc :=
  if 0 < d then
    fun j i =>
      if j < NY ∧ i < NX then
        if 1 ≤ j ∧ j < NY - 1 ∧ 1 ≤ i ∧ i < NX - 1 then
          max ((1 - 4 * d) * c j i
            + d * (c (j + 1) i + c (j - 1) i + c j (i + 1) + c j (i - 1))) 0
        else max (c j i) 0
      else c j i
  else c

/-- Vent stage: skipped unless `vent > 0`, otherwise
`c[0, i0:i1] *= (1 - 0.6 * vent)`. -/
def ventStage (vent : ℚ) (c : Conc) : Conc :=
  if 0 < vent then
    fun j i =>
      if j = 0 ∧ vent_x0 ≤ i ∧ i < vent_x1 then c j i * (1 - (3 / 5) * vent)
      else c j i
  else c

/-- Clip stage: `np.clip(c, 0.0, 5.0, out=c)`, applied unconditionally. -/
def clipStage (c : Conc) : Conc := fun j i =>
  if j < NY ∧ i < NX then min (max (c j i) 0) 5 else c j i

/-- One tick, `SafetyAnimation._step`. -/
def step (leak up d vent : ℚ) (c : Conc) : Conc :=
  clipStage (ventStage vent (diffuse d (buoy up (inject leak c))))

/-- Total mass of the field. -/
def gridSum (c : Conc) : ℚ :=
  ∑ j ∈ Finset.range NY, ∑ i ∈ Finset.range NX, c j i

/-- A concrete question used for concrete instances of the engine theorems. -/
def sampleQ : Question :=
  ⟨"q1", "General", "Basic", "Which number is even?", ["3", "4"], 1, "4 is divisible by 2."⟩

/-- A concrete incorrect answer record with the given category, difficulty and
rationale. -/
def mkWrong (cat diff rat : String) : AnswerRec :=
  ⟨"", "", "", "", false, rat, cat, diff⟩

/-- A history whose incorrect answers fall in categories A three times, B once
and C twice. -/
def hist6 : List AnswerRec :=
  [mkWrong "A" "Hard" "", mkWrong "A" "Hard" "", mkWrong "A" "Easy" "",
   mkWrong "B" "Easy" "", mkWrong "C" "Hard" "", mkWrong "C" "Easy" ""]

/-- A concrete correct answer record. -/
def correctRec : AnswerRec := ⟨"", "", "", "", true, "", "A", "Easy"⟩

theorem applyOp_quiz_items (e : QuizEngine) (op : Op) :
    (applyOp e op).quiz_items = e.quiz_items := by
  cases op with
  | check ci =>
      unfold applyOp QuizEngine.check_and_record
      cases h : e.current with
      | none => simp
      | some q => simp
  | next =>
      unfold applyOp QuizEngine.next
      by_cases h : e.index + 1 < e.quiz_items.length <;> simp [h]

theorem applyOp_check_history (e : QuizEngine) (ci : Int) :
    ((applyOp e (Op.check ci)).history.length
      = e.history.length + if e.current.isSome then 1 else 0) := by
  unfold applyOp QuizEngine.check_and_record
  cases h : e.current with
  | none => simp
  | some q => simp

theorem applyOp_next_history (e : QuizEngine) :
    (applyOp e Op.next).history = e.history := by
  unfold applyOp QuizEngine.next
  by_cases h : e.index + 1 < e.quiz_items.length <;> simp [h]

theorem submittedCount_nil (e : QuizEngine) : submittedCount e [] = 0 := rfl

theorem submittedCount_check (e : QuizEngine) (ci : Int) (t : List Op) :
    submittedCount e (Op.check ci :: t)
      = (if e.current.isSome then 1 else 0) + submittedCount (applyOp e (Op.check ci)) t := rfl

theorem submittedCount_next (e : QuizEngine) (t : List Op) :
    submittedCount e (Op.next :: t) = submittedCount (applyOp e Op.next) t := rfl

theorem history_length_applyOps (ops : List Op) (e : QuizEngine) :
    (applyOps e ops).history.length = e.history.length + submittedCount e ops := by
  induction ops generalizing e with
  | nil => simp [applyOps, submittedCount_nil]
  | cons op t ih =>
      cases op with
      | check ci =>
          have h : applyOps e (Op.check ci :: t) = applyOps (applyOp e (Op.check ci)) t := rfl
          rw [h, ih, applyOp_check_history, submittedCount_check]
          omega
      | next =>
          have h : applyOps e (Op.next :: t) = applyOps (applyOp e Op.next) t := rfl
          rw [h, ih, submittedCount_next, applyOp_next_history]

/-- C1 (amended): in any session created by `prepare_quiz`, after any sequence
of `check_and_record` and `next` calls, `len(history)` equals the number of
`check_and_record` calls made while a current question existed (each appends
exactly one record).  The originally claimed bound
`len(history) ≤ len(quiz_items)` does not hold; see the counterexample. -/
theorem history_counts_submissions (e : QuizEngine) (n : Int) (category : Option String)
    (shuffle : Bool) (sf : List Question → List Question) (ops : List Op) :
    (applyOps (e.prepare_quiz n category shuffle sf) ops).history.length
      = submittedCount (e.prepare_quiz n category shuffle sf) ops := by
  rw [history_length_applyOps]
  simp [QuizEngine.prepare_quiz]

/-- C1 counterexample: a session prepared over a one-question bank, receiving
two `check_and_record` calls, ends with `len(history) = 2` while
`len(quiz_items) = 1`, since `next` never moves `index` past the last item
and the last question can be answered repeatedly.  So `len(history)` is not
bounded by `len(quiz_items)`. -/
theorem history_exceeds_quiz_items :
    ¬ ((applyOps ((QuizEngine.init [sampleQ]).prepare_quiz 1 none false id)
          [Op.check 1, Op.check 1]).history.length
        ≤ (applyOps ((QuizEngine.init [sampleQ]).prepare_quiz 1 none false id)
          [Op.check 1, Op.check 1]).quiz_items.length) := by
  decide

/-- C3: for any bank, any requested count `n`, any category filter and any
length-preserving shuffle, `prepare_quiz` makes `len(quiz_items)` equal to
`min(max(1, n), P)` where `P` is the filtered pool size (hence 0 when the pool
is empty), and resets `index` to 0, `correct_count` to 0 and `history` to
empty; an absent category filter leaves the pool equal to the whole bank. -/
theorem prepare_quiz_resets (e : QuizEngine) (n : Int) (category : Option String)
    (shuffle : Bool) (sf : List Question → List Question)
    (hsf : (sf (poolOf e category)).length = (poolOf e category).length) :
    ((e.prepare_quiz n category shuffle sf).quiz_items.length
        = min (max 1 n).toNat (poolOf e category).length)
    ∧ (e.prepare_quiz n category shuffle sf).index = 0
    ∧ (e.prepare_quiz n category shuffle sf).correct_count = 0
    ∧ (e.prepare_quiz n category shuffle sf).history = []
    ∧ poolOf e none = e.all_questions := by
  refine ⟨?_, rfl, rfl, rfl, ?_⟩
  · unfold QuizEngine.prepare_quiz
    by_cases hs : shuffle <;> simp [hs, List.length_take, hsf]
  · unfold poolOf
    simp

/-- C3 witness: the truncation-and-reset theorem applied to a concrete
one-question bank with a concrete request. -/
theorem prepare_quiz_resets_witness :
    ((id (poolOf (QuizEngine.init [sampleQ]) (some "General"))).length
        = (poolOf (QuizEngine.init [sampleQ]) (some "General")).length)
    ∧ (((QuizEngine.init [sampleQ]).prepare_quiz 5 (some "General") true id).quiz_items.length
        = min (max 1 (5 : Int)).toNat (poolOf (QuizEngine.init [sampleQ]) (some "General")).length
      ∧ ((QuizEngine.init [sampleQ]).prepare_quiz 5 (some "General") true id).index = 0
      ∧ ((QuizEngine.init [sampleQ]).prepare_quiz 5 (some "General") true id).correct_count = 0
      ∧ ((QuizEngine.init [sampleQ]).prepare_quiz 5 (some "General") true id).history = []
      ∧ poolOf (QuizEngine.init [sampleQ]) none = (QuizEngine.init [sampleQ]).all_questions) :=
  ⟨rfl, prepare_quiz_resets (QuizEngine.init [sampleQ]) 5 (some "General") true id rfl⟩

/-- C4: whenever `check_and_record` is called while no current question exists,
it returns `(false, "")` and leaves the whole engine state, in particular
`index`, `correct_count` and `history`, unchanged. -/
theorem check_and_record_guard (e : QuizEngine) (ci : Int) (h : e.current = none) :
    e.check_and_record ci = (e, false, "") := by
  unfold QuizEngine.check_and_record
  rw [h]

/-- C4 witness: the guard theorem applied to a concrete engine with no
questions, whose current question is absent. -/
theorem check_and_record_guard_witness :
    (QuizEngine.init []).current = none
    ∧ (QuizEngine.init []).check_and_record 0 = (QuizEngine.init [], false, "") :=
  ⟨rfl, check_and_record_guard (QuizEngine.init []) 0 rfl⟩

theorem applyOp_scoreInv (e : QuizEngine) (op : Op) (h : scoreInv e) :
    scoreInv (applyOp e op) := by
  cases op with
  | check ci =>
      unfold applyOp QuizEngine.check_and_record
      cases hq : e.current with
      | none => simpa using h
      | some q =>
          unfold scoreInv at h ⊢
          simp only [List.countP_append, h]
          by_cases hc : ci = q.correct_index <;> simp [hc, List.countP_cons]
  | next =>
      unfold scoreInv at h ⊢
      unfold applyOp QuizEngine.next
      by_cases hn : e.index + 1 < e.quiz_items.length <;> simp [hn, h]

theorem applyOp_correct_mono (e : QuizEngine) (op : Op) :
    e.correct_count ≤ (applyOp e op).correct_count := by
  cases op with
  | check ci =>
      unfold applyOp QuizEngine.check_and_record
      cases hq : e.current with
      | none => simp
      | some q => simp
  | next =>
      unfold applyOp QuizEngine.next
      by_cases hn : e.index + 1 < e.quiz_items.length <;> simp [hn]

theorem applyOps_scoreInv (ops : List Op) (e : QuizEngine) (h : scoreInv e) :
    scoreInv (applyOps e ops) := by
  induction ops generalizing e with
  | nil => exact h
  | cons op t ih => exact ih (applyOp e op) (applyOp_scoreInv e op h)

theorem applyOps_correct_mono (ops : List Op) (e : QuizEngine) :
    e.correct_count ≤ (applyOps e ops).correct_count := by
  induction ops generalizing e with
  | nil => exact le_refl _
  | cons op t ih => exact le_trans (applyOp_correct_mono e op) (ih (applyOp e op))

/-- C5: after any sequence of operations following `prepare_quiz`,
`correct_count` equals the number of history entries whose `is_correct` field
is true; it is non-decreasing under any further operations, and never exceeds
`len(history)`. -/
theorem score_matches_history (e : QuizEngine) (n : Int) (category : Option String)
    (shuffle : Bool) (sf : List Question → List Question) (ops ops2 : List Op) :
    ((applyOps (e.prepare_quiz n category shuffle sf) ops).correct_count
        = (applyOps (e.prepare_quiz n category shuffle sf) ops).history.countP
            (fun r => r.is_correct))
    ∧ (applyOps (e.prepare_quiz n category shuffle sf) ops).correct_count
        ≤ (applyOps (e.prepare_quiz n category shuffle sf) (ops ++ ops2)).correct_count
    ∧ (applyOps (e.prepare_quiz n category shuffle sf) ops).correct_count
        ≤ (applyOps (e.prepare_quiz n category shuffle sf) ops).history.length := by
  have h0 : scoreInv (e.prepare_quiz n category shuffle sf) := by
    unfold scoreInv QuizEngine.prepare_quiz
    simp
  have hinv := applyOps_scoreInv ops _ h0
  refine ⟨hinv, ?_, ?_⟩
  · rw [show applyOps (e.prepare_quiz n category shuffle sf) (ops ++ ops2)
        = applyOps (applyOps (e.prepare_quiz n category shuffle sf) ops) ops2 from
      List.foldl_append _ _ _ _]
    exact applyOps_correct_mono ops2 _
  · rw [hinv]
    exact List.countP_le_length _

theorem applyOp_index_bound (e : QuizEngine) (op : Op)
    (h : e.index ≤ e.quiz_items.length - 1) :
    (applyOp e op).index ≤ (applyOp e op).quiz_items.length - 1 := by
  cases op with
  | check ci =>
      unfold applyOp QuizEngine.check_and_record
      cases hq : e.current with
      | none => simpa using h
      | some q => simpa using h
  | next =>
      unfold applyOp QuizEngine.next
      by_cases hn : e.index + 1 < e.quiz_items.length
      · simp only [hn, if_true]
        omega
      · simpa [hn] using h

theorem applyOps_index_bound (ops : List Op) (e : QuizEngine)
    (h : e.index ≤ e.quiz_items.length - 1) :
    (applyOps e ops).index ≤ (applyOps e ops).quiz_items.length - 1 := by
  induction ops generalizing e with
  | nil => exact h
  | cons op t ih => exact ih (applyOp e op) (applyOp_index_bound e op h)

/-- C9: after `prepare_quiz` and any sequence of operations, `index` never
passes `len(quiz_items) - 1`, and the current question is absent exactly when
`quiz_items` is empty: every non-empty session always has a current
question. -/
theorem current_absent_iff_empty (e : QuizEngine) (n : Int) (category : Option String)
    (shuffle : Bool) (sf : List Question → List Question) (ops : List Op) :
    ((applyOps (e.prepare_quiz n category shuffle sf) ops).index
        ≤ (applyOps (e.prepare_quiz n category shuffle sf) ops).quiz_items.length - 1)
    ∧ ((applyOps (e.prepare_quiz n category shuffle sf) ops).current = none
        ↔ (applyOps (e.prepare_quiz n category shuffle sf) ops).quiz_items = []) := by
  have hb : (applyOps (e.prepare_quiz n category shuffle sf) ops).index
      ≤ (applyOps (e.prepare_quiz n category shuffle sf) ops).quiz_items.length - 1 := by
    refine applyOps_index_bound ops _ ?_
    unfold QuizEngine.prepare_quiz
    simp
  refine ⟨hb, ?_⟩
  unfold QuizEngine.current
  rw [List.getElem?_eq_none_iff]
  constructor
  · intro hlen
    have h0 : (applyOps (e.prepare_quiz n category shuffle sf) ops).quiz_items.length = 0 := by
      omega
    exact List.length_eq_zero.mp h0
  · intro hnil
    rw [hnil]
    simp

theorem insertDesc_nil (p : String × Nat) : insertDesc p [] = [p] := rfl

theorem insertDesc_cons (p q : String × Nat) (t : List (String × Nat)) :
    insertDesc p (q :: t) = if q.2 < p.2 then p :: q :: t else q :: insertDesc p t := rfl

theorem mem_insertDesc (x p : String × Nat) (l : List (String × Nat))
    (h : x ∈ insertDesc p l) : x = p ∨ x ∈ l := by
  induction l with
  | nil =>
      rw [insertDesc_nil] at h
      exact Or.inl (List.mem_singleton.mp h)
  | cons q t ih =>
      rw [insertDesc_cons] at h
      by_cases hq : q.2 < p.2
      · simp only [hq, if_true] at h
        rcases List.mem_cons.mp h with h | h
        · exact Or.inl h
        · exact Or.inr h
      · simp only [hq, if_false] at h
        rcases List.mem_cons.mp h with h | h
        · exact Or.inr (h ▸ List.mem_cons_self q t)
        · rcases ih h with h' | h'
          · exact Or.inl h'
          · exact Or.inr (List.mem_cons_of_mem q h')

theorem pairwise_insertDesc (p : String × Nat) (l : List (String × Nat))
    (h : l.Pairwise (fun a b => b.2 ≤ a.2)) :
    (insertDesc p l).Pairwise (fun a b => b.2 ≤ a.2) := by
  induction l with
  | nil =>
      rw [insertDesc_nil]
      simp
  | cons q t ih =>
      rw [insertDesc_cons]
      rcases List.pairwise_cons.mp h with ⟨hq, ht⟩
      by_cases hlt : q.2 < p.2
      · simp only [hlt, if_true]
        refine List.pairwise_cons.mpr ⟨?_, h⟩
        intro x hx
        rcases List.mem_cons.mp hx with rfl | hx
        · exact le_of_lt hlt
        · exact le_trans (hq x hx) (le_of_lt hlt)
      · simp only [hlt, if_false]
        refine List.pairwise_cons.mpr ⟨?_, ih ht⟩
        intro x hx
        rcases mem_insertDesc x p t hx with rfl | hx
        · exact not_lt.mp hlt
        · exact hq x hx

theorem filter_insertDesc (p : String × Nat) (l : List (String × Nat))
    (h : l.Pairwise (fun a b => b.2 ≤ a.2)) (v : Nat) :
    (insertDesc p l).filter (fun q => q.2 == v)
      = if p.2 == v then l.filter (fun q => q.2 == v) ++ [p]
        else l.filter (fun q => q.2 == v) := by
  induction l with
  | nil =>
      rw [insertDesc_nil]
      by_cases hv : p.2 = v <;> simp [hv, List.filter_cons]
  | cons q t ih =>
      rcases List.pairwise_cons.mp h with ⟨hq, ht⟩
      rw [insertDesc_cons]
      by_cases hlt : q.2 < p.2
      · simp only [hlt, if_true]
        by_cases hv : p.2 = v
        · have hnil : (q :: t).filter (fun r => r.2 == v) = [] := by
            rw [List.filter_eq_nil_iff]
            intro a ha
            have : a.2 ≤ q.2 := by
              rcases List.mem_cons.mp ha with rfl | ha'
              · exact le_refl _
              · exact hq a ha'
            simp only [beq_iff_eq]
            omega
          rw [List.filter_cons]
          simp only [hv, beq_self_eq_true, if_true, hnil]
          simp [hv]
        · rw [List.filter_cons]
          simp [hv]
      · simp only [hlt, if_false]
        rw [List.filter_cons, List.filter_cons, ih ht]
        by_cases hqv : q.2 = v <;> by_cases hpv : p.2 = v <;>
          simp [hqv, hpv, List.cons_append]

theorem sortDescAux_spec (l : List (String × Nat)) :
    ∀ acc : List (String × Nat), acc.Pairwise (fun a b => b.2 ≤ a.2) →
      (l.foldl (fun acc p => insertDesc p acc) acc).Pairwise (fun a b => b.2 ≤ a.2)
      ∧ ∀ v : Nat, (l.foldl (fun acc p => insertDesc p acc) acc).filter (fun q => q.2 == v)
          = acc.filter (fun q => q.2 == v) ++ l.filter (fun q => q.2 == v) := by
  induction l with
  | nil =>
      intro acc h
      simpa using h
  | cons p t ih =>
      intro acc h
      have hacc' := pairwise_insertDesc p acc h
      obtain ⟨hp, hf⟩ := ih (insertDesc p acc) hacc'
      have hstep : (p :: t).foldl (fun acc p => insertDesc p acc) acc
          = t.foldl (fun acc p => insertDesc p acc) (insertDesc p acc) := rfl
      refine ⟨hstep ▸ hp, fun v => ?_⟩
      rw [hstep, hf v, filter_insertDesc p acc h v, List.filter_cons]
      by_cases hv : p.2 = v <;> simp [hv]

theorem sortDesc_pairwise (l : List (String × Nat)) :
    (sortDesc l).Pairwise (fun a b => b.2 ≤ a.2) :=
  (sortDescAux_spec l [] (by simp)).1

theorem sortDesc_filter (l : List (String × Nat)) (v : Nat) :
    (sortDesc l).filter (fun q => q.2 == v) = l.filter (fun q => q.2 == v) := by
  have h := (sortDescAux_spec l [] (by simp)).2 v
  simpa [sortDesc] using h

theorem insertDesc_perm (p : String × Nat) (l : List (String × Nat)) :
    List.Perm (insertDesc p l) (p :: l) := by
  induction l with
  | nil => rw [insertDesc_nil]
  | cons q t ih =>
      rw [insertDesc_cons]
      by_cases hlt : q.2 < p.2
      · simp [hlt]
      · simp only [hlt, if_false]
        exact List.Perm.trans (ih.cons q) (List.Perm.swap p q t)

theorem sortDescAux_perm (l : List (String × Nat)) :
    ∀ acc : List (String × Nat),
      List.Perm (l.foldl (fun acc p => insertDesc p acc) acc) (acc ++ l) := by
  induction l with
  | nil => intro acc; simp
  | cons p t ih =>
      intro acc
      have hstep : (p :: t).foldl (fun acc p => insertDesc p acc) acc
          = t.foldl (fun acc p => insertDesc p acc) (insertDesc p acc) := rfl
      rw [hstep]
      exact ((ih (insertDesc p acc)).trans
        (((insertDesc_perm p acc).append_right t).trans List.perm_middle.symm))

theorem sortDesc_perm (l : List (String × Nat)) : List.Perm (sortDesc l) l := by
  simpa [sortDesc] using sortDescAux_perm l []

theorem bump_map_fst (l : List (String × Nat)) (k : String) :
    (bump l k).map Prod.fst
      = if k ∈ l.map Prod.fst then l.map Prod.fst else l.map Prod.fst ++ [k] := by
  induction l with
  | nil => simp [bump]
  | cons p t ih =>
      obtain ⟨k', v⟩ := p
      unfold bump
      by_cases hk : k' = k
      · subst hk
        simp
      · have hk' : (k' == k) = false := by simp [hk]
        simp only [hk', Bool.false_eq_true, if_false, List.map_cons]
        rw [ih]
        by_cases hmem : k ∈ t.map Prod.fst
        · simp [hmem, Ne.symm hk]
        · simp [hmem, Ne.symm hk]

theorem foldl_bump_map_fst (ks : List String) :
    ∀ acc : List (String × Nat),
      (ks.foldl bump acc).map Prod.fst
        = ks.foldl (fun a k => if k ∈ a then a else a ++ [k]) (acc.map Prod.fst) := by
  induction ks with
  | nil => intro acc; rfl
  | cons k t ih =>
      intro acc
      have hstep : (k :: t).foldl bump acc = t.foldl bump (bump acc k) := rfl
      rw [hstep, ih (bump acc k), bump_map_fst]
      rfl

theorem foldl_wrong_eq (f : AnswerRec → String) (h : List AnswerRec) :
    ∀ acc : List (String × Nat),
      h.foldl (fun a r => if r.is_correct then a else bump a (f r)) acc
        = ((h.filter fun r => !r.is_correct).map f).foldl bump acc := by
  induction h with
  | nil => intro acc; rfl
  | cons r t ih =>
      intro acc
      cases hr : r.is_correct <;>
        simp [List.foldl_cons, List.filter_cons, hr, ih]

theorem wrongByCat_map_fst (h : List AnswerRec) :
    (wrongByCat h).map Prod.fst
      = firstSeen ((h.filter fun r => !r.is_correct).map fun r => r.category) := by
  unfold wrongByCat firstSeen
  rw [foldl_wrong_eq (fun r => r.category) h [], foldl_bump_map_fst]
  rfl

theorem bump_ne_nil (l : List (String × Nat)) (k : String) : bump l k ≠ [] := by
  cases l with
  | nil => simp [bump]
  | cons p t =>
      obtain ⟨k', v⟩ := p
      unfold bump
      by_cases hk : (k' == k) = true <;> simp [hk]

theorem foldl_wrongTable_eq_nil (f : AnswerRec → String) (h : List AnswerRec) :
    ∀ acc : List (String × Nat),
      (h.foldl (fun a r => if r.is_correct then a else bump a (f r)) acc = []
        ↔ acc = [] ∧ ∀ r ∈ h, r.is_correct = true) := by
  induction h with
  | nil => intro acc; simp
  | cons r t ih =>
      intro acc
      cases hr : r.is_correct
      · simp only [List.foldl_cons, hr, Bool.false_eq_true, if_false]
        rw [ih (bump acc (f r))]
        constructor
        · rintro ⟨hnil, -⟩
          exact absurd hnil (bump_ne_nil acc (f r))
        · rintro ⟨-, hall⟩
          have := hall r (List.mem_cons_self r t)
          simp [hr] at this
      · simp only [List.foldl_cons, hr, if_true]
        rw [ih acc]
        constructor
        · rintro ⟨hnil, hall⟩
          refine ⟨hnil, fun x hx => ?_⟩
          rcases List.mem_cons.mp hx with rfl | hx
          · exact hr
          · exact hall x hx
        · rintro ⟨hnil, hall⟩
          exact ⟨hnil, fun x hx => hall x (List.mem_cons_of_mem r hx)⟩

theorem wrongByCat_eq_nil (h : List AnswerRec) :
    wrongByCat h = [] ↔ ∀ r ∈ h, r.is_correct = true := by
  unfold wrongByCat
  rw [foldl_wrongTable_eq_nil (fun r => r.category) h []]
  simp

theorem wrongByDiff_eq_nil (h : List AnswerRec) :
    wrongByDiff h = [] ↔ ∀ r ∈ h, r.is_correct = true := by
  unfold wrongByDiff
  rw [foldl_wrongTable_eq_nil (fun r => r.difficulty) h []]
  simp

/-- C6: for every history, the recommendation builder lists at most 3
categories; the ranking it takes them from is the incorrect-count table sorted
by count descending (a permutation of it, non-increasing in the counts), with
ties broken by first-seen order: entries of equal count appear exactly in
table order, and the table's keys are the incorrect records' categories in
first-seen order.  On a history with incorrect counts A:3, B:1, C:2 the listed
order is [A, C, B]. -/
theorem recommendation_ranking :
    (∀ h : List AnswerRec,
      (topCats h).length ≤ 3
      ∧ (sortDesc (wrongByCat h)).Pairwise (fun p q => q.2 ≤ p.2)
      ∧ List.Perm (sortDesc (wrongByCat h)) (wrongByCat h)
      ∧ (∀ v : Nat, (sortDesc (wrongByCat h)).filter (fun p => p.2 == v)
            = (wrongByCat h).filter (fun p => p.2 == v))
      ∧ (wrongByCat h).map Prod.fst
          = firstSeen ((h.filter fun r => !r.is_correct).map fun r => r.category))
    ∧ topCats hist6 = ["A", "C", "B"] := by
  refine ⟨fun h => ⟨?_, sortDesc_pairwise _, sortDesc_perm _,
    fun v => sortDesc_filter _ v, wrongByCat_map_fst h⟩, by decide⟩
  unfold topCats
  rw [List.length_map]
  exact le_trans (List.length_take_le 3 _) (le_refl 3)

/-- C7 counterexample: a history with exactly one incorrect record whose
difficulty is the empty string.  The most-frequent difficulty among incorrect
records exists, but the builder's output contains no targeted-practice hint:
the `if hardest:` guard suppresses the line for a falsy difficulty string. -/
theorem toughest_hint_suppressed :
    (List.countP (fun r => !r.is_correct) [mkWrong "X" "" ""] = 1)
    ∧ toughestHint (wrongByDiff [mkWrong "X" "" ""]) = []
    ∧ build_recommendations [mkWrong "X" "" ""]
        = "\nRecommendations (focus on these topics):\n• X — revise fundamentals and procedures." := by
  refine ⟨by decide, by decide, by decide⟩

/-- C7 (amended): for every history whose incorrect records have a
most-frequent difficulty (first of the count-descending, first-seen tie-broken
order) that is a non-empty string, the builder's line list contains the
targeted-practice hint naming that difficulty, and the builder's output is
exactly those lines joined by newlines.  When that difficulty is the empty
string the hint is suppressed; see the counterexample. -/
theorem toughest_hint_reported (h : List AnswerRec) (hardest : String) (cnt : Nat)
    (hh : (sortDesc (wrongByDiff h)).head? = some (hardest, cnt))
    (hne : hardest ≠ "") :
    (("• Your toughest level: " ++ hardest
        ++ ". Try more practice questions in this difficulty.") ∈ recLines h)
    ∧ build_recommendations h = String.intercalate "\n" (recLines h) := by
  have hwbd : wrongByDiff h ≠ [] := by
    intro hnil
    rw [hnil] at hh
    simp [sortDesc] at hh
  have hhint : toughestHint (wrongByDiff h)
      = ["• Your toughest level: " ++ hardest
          ++ ". Try more practice questions in this difficulty."] := by
    unfold toughestHint
    rw [hh]
    simp [List.isEmpty_iff, hwbd, hne]
  constructor
  · unfold recLines
    rw [hhint]
    exact List.mem_append_right _ (List.mem_singleton_self _)
  · have hnall : ¬ ∀ r ∈ h, r.is_correct = true := fun hall =>
      hwbd ((wrongByDiff_eq_nil h).mpr hall)
    have hhist : h ≠ [] := by
      rintro rfl
      exact hnall (by simp)
    have hcat : wrongByCat h ≠ [] := fun hnil => hnall ((wrongByCat_eq_nil h).mp hnil)
    unfold build_recommendations
    simp [List.isEmpty_iff, hhist, hcat]

/-- C7 witness: the amended hint theorem applied to a concrete history with one
incorrect record of difficulty "Hard". -/
theorem toughest_hint_reported_witness :
    ((sortDesc (wrongByDiff [mkWrong "X" "Hard" ""])).head? = some ("Hard", 1)
      ∧ "Hard" ≠ "")
    ∧ ((("• Your toughest level: " ++ "Hard"
          ++ ". Try more practice questions in this difficulty.")
            ∈ recLines [mkWrong "X" "Hard" ""])
      ∧ build_recommendations [mkWrong "X" "Hard" ""]
          = String.intercalate "\n" (recLines [mkWrong "X" "Hard" ""])) :=
  ⟨⟨by decide, by decide⟩,
   toughest_hint_reported [mkWrong "X" "Hard" ""] "Hard" 1 (by decide) (by decide)⟩

/-- C8 counterexample: the empty history contains zero incorrect records, yet
the builder returns the empty string, not the congratulatory message. -/
theorem congrats_missing_for_empty_history :
    build_recommendations [] = "" ∧ ("" : String) ≠ congratsMsg :=
  ⟨rfl, by decide⟩

/-- C8 (amended): for every non-empty history containing zero incorrect
records, the builder returns exactly the congratulatory message, with no topic
breakdown; for the empty history it returns the empty string instead (see the
counterexample). -/
theorem congrats_when_all_correct (h : List AnswerRec) (hne : h ≠ [])
    (hall : ∀ r ∈ h, r.is_correct = true) :
    build_recommendations h = congratsMsg := by
  have hcat : wrongByCat h = [] := (wrongByCat_eq_nil h).mpr hall
  unfold build_recommendations
  simp [List.isEmpty_iff, hne, hcat]

/-- C8 witness: the amended congratulation theorem applied to a concrete
one-record, all-correct history. -/
theorem congrats_when_all_correct_witness :
    ([correctRec] ≠ ([] : List AnswerRec))
    ∧ build_recommendations [correctRec] = congratsMsg :=
  ⟨by decide, congrats_when_all_correct [correctRec] (by decide) (by decide)⟩

/-- C2: after one `_step` tick, for all parameter values and any prior field,
every in-room cell of the concentration grid lies in the closed interval
[0, 5]: the final clip stage runs unconditionally. -/
theorem step_bounded (leak up d vent : ℚ) (c : Conc) (j i : Nat)
    (hj : j < NY) (hi : i < NX) :
    0 ≤ step leak up d vent c j i ∧ step leak up d vent c j i ≤ 5 := by
  unfold step clipStage
  simp only [hj, hi, and_self, if_true]
  constructor
  · exact le_min (le_max_right _ _) (by norm_num)
  · exact min_le_right _ _

/-- C2 witness: the clipping theorem applied at a concrete cell of a concrete
field with concrete parameters. -/
theorem step_bounded_witness :
    ((0 : Nat) < NY ∧ (0 : Nat) < NX)
    ∧ (0 ≤ step 1 1 1 1 (fun _ _ => 0) 0 0 ∧ step 1 1 1 1 (fun _ _ => 0) 0 0 ≤ 5) :=
  ⟨⟨by decide, by decide⟩, step_bounded 1 1 1 1 (fun _ _ => 0) 0 0 (by decide) (by decide)⟩

theorem buoyTmp_nonneg (up : ℚ) (c : Conc)
    (hc : ∀ j i, j < NY → i < NX → 0 ≤ c j i) (h0 : 0 ≤ up) (h1 : up ≤ 1)
    (j i : Nat) (hj : j < NY) (hi : i < NX) : 0 ≤ buoyTmp up c j i := by
  unfold buoyTmp
  have hcj := hc j i hj hi
  by_cases hup : j + 1 < NY
  · have hcj1 := hc (j + 1) i hup hi
    by_cases h1j : 1 ≤ j
    · simp only [hup, if_true, h1j]
      nlinarith
    · simp only [hup, if_true, h1j, if_false]
      nlinarith
  · by_cases h1j : 1 ≤ j
    · simp only [hup, if_false, h1j, if_true]
      nlinarith
    · simp only [hup, if_false, h1j]
      nlinarith

theorem sum_buoyTmp_col (up : ℚ) (c : Conc) (i : Nat) :
    ∑ j ∈ Finset.range NY, buoyTmp up c j i = ∑ j ∈ Finset.range NY, c j i := by
  unfold buoyTmp
  rw [Finset.sum_sub_distrib, Finset.sum_add_distrib]
  have hup : ∑ j ∈ Finset.range NY, (if j + 1 < NY then up * c (j + 1) i else 0)
      = ∑ j ∈ Finset.range (NY - 1), up * c (j + 1) i := by
    show ∑ j ∈ Finset.range 35, (if j + 1 < 35 then up * c (j + 1) i else 0)
      = ∑ j ∈ Finset.range 34, up * c (j + 1) i
    rw [Finset.sum_range_succ]
    simp only [show ¬(34 + 1 < 35) by decide, if_false, add_zero]
    refine Finset.sum_congr rfl fun j hj => ?_
    have : j + 1 < 35 := by
      have := Finset.mem_range.mp hj
      omega
    simp [this]
  have hdn : ∑ j ∈ Finset.range NY, (if 1 ≤ j then up * c j i else 0)
      = ∑ j ∈ Finset.range (NY - 1), up * c (j + 1) i := by
    show ∑ j ∈ Finset.range 35, (if 1 ≤ j then up * c j i else 0)
      = ∑ j ∈ Finset.range 34, up * c (j + 1) i
    rw [Finset.sum_range_succ']
    simp
  rw [hup, hdn]
  ring

/-- C10: for every field whose in-room cells are non-negative and every
buoyancy value in [0, 1], the buoyancy stage leaves the total in-room mass
exactly unchanged, and every resulting in-room cell is non-negative and equal
to the unclamped scratch value, so the stage's clamp to zero never changes a
value. -/
theorem buoy_mass_conserved (up : ℚ) (c : Conc)
    (hc : ∀ j i, j < NY → i < NX → 0 ≤ c j i) (h0 : 0 ≤ up) (h1 : up ≤ 1) :
    gridSum (buoy up c) = gridSum c
    ∧ ∀ j i, j < NY → i < NX →
        0 ≤ buoy up c j i ∧ buoy up c j i = buoyTmp up c j i := by
  by_cases hup : 0 < up
  · have hnn : ∀ j i, j < NY → i < NX → 0 ≤ buoyTmp up c j i :=
      fun j i hj hi => buoyTmp_nonneg up c hc h0 h1 j i hj hi
    have hcell : ∀ j i, j < NY → i < NX → buoy up c j i = buoyTmp up c j i := by
      intro j i hj hi
      unfold buoy
      simp only [hup, if_true, hj, hi, and_self]
      exact max_eq_left (hnn j i hj hi)
    refine ⟨?_, fun j i hj hi => ⟨(hcell j i hj hi) ▸ hnn j i hj hi, hcell j i hj hi⟩⟩
    unfold gridSum
    have h1' : ∑ j ∈ Finset.range NY, ∑ i ∈ Finset.range NX, buoy up c j i
        = ∑ j ∈ Finset.range NY, ∑ i ∈ Finset.range NX, buoyTmp up c j i := by
      refine Finset.sum_congr rfl fun j hj => Finset.sum_congr rfl fun i hi => ?_
      exact hcell j i (Finset.mem_range.mp hj) (Finset.mem_range.mp hi)
    rw [h1', Finset.sum_comm]
    rw [show ∑ j ∈ Finset.range NY, ∑ i ∈ Finset.range NX, c j i
        = ∑ i ∈ Finset.range NX, ∑ j ∈ Finset.range NY, c j i from Finset.sum_comm]
    exact Finset.sum_congr rfl fun i _ => sum_buoyTmp_col up c i
  · have hz : up = 0 := le_antisymm (not_lt.mp hup) h0
    have hb : buoy up c = c := by
      unfold buoy
      simp [hup]
    refine ⟨by rw [hb], fun j i hj hi => ?_⟩
    rw [hb]
    refine ⟨hc j i hj hi, ?_⟩
    unfold buoyTmp
    simp [hz]

/-- C10 witness: the buoyancy conservation theorem applied to the zero field
with buoyancy one half. -/
theorem buoy_mass_conserved_witness :
    ((0 : ℚ) ≤ 1 / 2 ∧ (1 / 2 : ℚ) ≤ 1)
    ∧ gridSum (buoy (1 / 2) (fun _ _ => 0)) = gridSum (fun _ _ => (0 : ℚ)) :=
  ⟨⟨by norm_num, by norm_num⟩,
   (buoy_mass_conserved (1 / 2) (fun _ _ => 0)
      (fun _ _ _ _ => le_refl 0) (by norm_num) (by norm_num)).1⟩

end HydrogenTrainer
